import Mathlib

/-!
Verification of the snipster repository-abstraction layer.

Shallow embedding of the storage backends
(`src/snipster/repositories/in_memory_repository.py`,
`src/snipster/repositories/json_repository.py`,
`src/snipster/repositories/sql_model_repository.py`), the shared tag-merge
algorithm (`src/snipster/repositories/repository.py`), the search-with-escaping
query builder (`src/snipster/database_manager.py`), and the gist
reconciliation operations (`sql_model_repository.py`).

Conventions of the embedding:
* Python strings are Lean `String`s; character-level algorithms work on
  `List Char`.
* The Python `dict[int, Snippet]` stores are association lists
  `List (Nat × SnippetC)` in insertion order (Python dicts preserve
  insertion order); keys are unique by construction from the operations.
* Raised exceptions become explicit error values of type `SnipErr`.
* The remote GitHub gist service is an oracle (`Remote`) giving the outcome
  of each HTTP call; database connectivity failures are out of scope.
-/

namespace Snipster

/-- The `Language` enum of `src/snipster/types.py`. -/
inductive Language where
  | python
  | javascript
  | typescript
deriving DecidableEq, Repr

/-- The string value of a `Language` member (`Language.PYTHON = "Python"` …). -/
def Language.value : Language → String
  | .python => "Python"
  | .javascript => "JavaScript"
  | .typescript => "TypeScript"

/-- The mutable content of a `Snippet` row (`src/snipster/models.py`), without
the backend-assigned `id` and without the timestamps (not needed by any claim
proved here). -/
structure SnippetC where
  title : String
  code : String
  description : Option String := none
  language : Language := .python
  tags : Option String := none
  favorite : Bool := false
deriving DecidableEq, Repr

/-- The error taxonomy of `src/snipster/exceptions.py` (plus the built-in
`KeyError` / `ValueError` that the in-memory backend raises). -/
inductive SnipErr where
  | duplicateSnippet
  | snippetNotFound
  | multipleSnippetsFound
  | duplicateGist
  | gistNotFound
  | repositoryError
  | keyError
  | valueError
deriving DecidableEq, Repr

/-- One repository operation of the common backend contract (`add` / `list` /
`get` / `delete`). -/
inductive Op where
  | add (s : SnippetC)
  | del (i : Nat)
  | get (i : Nat)
  | listAll
deriving DecidableEq, Repr

/-- The observable outcome of one operation.  `get` results are compared on
the snippet content (the backend-assigned `id` field is stripped). -/
inductive Obs where
  | ok
  | err (e : SnipErr)
  | got (r : Option SnippetC)
  | listed (rs : List SnippetC)
deriving DecidableEq, Repr

/-- Backend store state: entries in insertion order plus a next-id counter.
The in-memory backend's `_data` / `_next_id` and the JSON backend's
`_data` / `_next_id` use both fields; the relational backend stores only
the table and derives each new id from the stored rows (see `sqlStep`), so
its step function never reads or writes `nextId`. -/
structure St where
  entries : List (Nat × SnippetC)
  nextId : Nat
deriving DecidableEq, Repr

/-- The empty starting state of each backend (`_next_id = 1`). -/
def St.init : St := ⟨[], 1⟩

/-- Binding of key `i`, if any (first match, as in a Python dict). -/
def lookupKey (i : Nat) (l : List (Nat × SnippetC)) : Option SnippetC :=
  match l.find? (fun e => e.1 == i) with
  | some e => some e.2
  | none => none

/-- Python dict assignment `d[k] = v`: replace in place if present, else
append. -/
def dictInsert (k : Nat) (v : SnippetC) (l : List (Nat × SnippetC)) :
    List (Nat × SnippetC) :=
  if (lookupKey k l).isSome then
    l.map (fun e => if e.1 == k then (k, v) else e)
  else
    l ++ [(k, v)]

/-- Python dict `d.pop(k)` after a membership check: drop the binding. -/
def dictRemove (k : Nat) (l : List (Nat × SnippetC)) : List (Nat × SnippetC) :=
  l.filter (fun e => e.1 != k)

/-- Does the store already hold a snippet with this (title, language) pair?
This is the duplicate key of the `UniqueConstraint("title", "language")` in
`models.py` and of the scan in `JSONSnippetRepository.add`. -/
def hasDup (s : SnippetC) (l : List (Nat × SnippetC)) : Bool :=
  l.any (fun e => e.2.title == s.title && e.2.language == s.language)

/-- Largest stored id (0 when the table is empty).  The SQLite medium behind
the relational backend (`DATABASE_URL` defaults to `sqlite:///snippets.db`;
`id: int | None = Field(default=None, primary_key=True)` giving an
`INTEGER PRIMARY KEY` without `AUTOINCREMENT`) assigns the next row id as
one more than this value — so the largest id is reused after the row
holding it is deleted. -/
def maxKey : List (Nat × SnippetC) → Nat
  | [] => 0
  | e :: t => max e.1 (maxKey t)

/-- `InMemorySnippetRepository` step function (`in_memory_repository.py`):
`add` stores unconditionally under `_next_id` and increments it; `delete`
raises `KeyError` when the id is absent. -/
def memStep (st : St) (op : Op) : St × Obs :=
  match op with
  | .add s => (⟨dictInsert st.nextId s st.entries, st.nextId + 1⟩, .ok)
  | .del i =>
      if (lookupKey i st.entries).isSome then
        (⟨dictRemove i st.entries, st.nextId⟩, .ok)
      else
        (st, .err .keyError)
  | .get i => (st, .got (lookupKey i st.entries))
  | .listAll => (st, .listed (st.entries.map (fun e => e.2)))

/-- `JSONSnippetRepository` step function (`json_repository.py`): `add`
silently returns without storing when a (title, language) duplicate exists;
`delete` of an absent id logs a warning and is a no-op. -/
def jsonStep (st : St) (op : Op) : St × Obs :=
  match op with
  | .add s =>
      if hasDup s st.entries then (st, .ok)
      else (⟨st.entries ++ [(st.nextId, s)], st.nextId + 1⟩, .ok)
  | .del i =>
      if (lookupKey i st.entries).isSome then
        (⟨dictRemove i st.entries, st.nextId⟩, .ok)
      else
        (st, .ok)
  | .get i => (st, .got (lookupKey i st.entries))
  | .listAll => (st, .listed (st.entries.map (fun e => e.2)))

/-- `SQLModelRepository` step function (`sql_model_repository.py` over
`database_manager.py`): `add` raises `DuplicateSnippetError` on a
(title, language) uniqueness violation; `delete` raises
`SnippetNotFoundError` when no row matches and
`MultipleSnippetsFoundError` when more than one row matches (the `.one()`
call in `DatabaseManager.delete_record`).  The SQLite medium assigns the
new row id as `maxKey + 1` (rowid semantics of an `INTEGER PRIMARY KEY`
without `AUTOINCREMENT`): the largest id is reused after its row is
deleted.  The `nextId` field of the shared state type is not used by this
backend. -/
def sqlStep (st : St) (op : Op) : St × Obs :=
  match op with
  | .add s =>
      if hasDup s st.entries then (st, .err .duplicateSnippet)
      else (⟨st.entries ++ [(maxKey st.entries + 1, s)], st.nextId⟩, .ok)
  | .del i =>
      match (st.entries.filter (fun e => e.1 == i)).length with
      | 0 => (st, .err .snippetNotFound)
      | 1 => (⟨dictRemove i st.entries, st.nextId⟩, .ok)
      | _ + 2 => (st, .err .multipleSnippetsFound)
  | .get i => (st, .got (lookupKey i st.entries))
  | .listAll => (st, .listed (st.entries.map (fun e => e.2)))

/-- Run a sequence of operations through one backend, collecting the
observation of every operation. -/
def runOps (step : St → Op → St × Obs) (st : St) : List Op → St × List Obs
  | [] => (st, [])
  | op :: rest =>
      let r := step st op
      let rr := runOps step r.1 rest
      (rr.1, r.2 :: rr.2)

/-- An operation sequence is benign from `st` when every `add` brings a
fresh (title, language) pair and every `delete` targets an id stored
exactly once that is not the largest stored id.  (The successor state is
tracked with `memStep`.)  Deleting the largest stored id is excluded
because the relational medium then reuses that id for the next insert
while the in-memory and JSON counters never do. -/
def okSeq (st : St) : List Op → Bool
  | [] => true
  | op :: rest =>
      (match op with
        | .add s => !hasDup s st.entries
        | .del i => (st.entries.filter (fun e => e.1 == i)).length == 1 &&
            i != maxKey st.entries
        | .get _ => true
        | .listAll => true) &&
      okSeq (memStep st op).1 rest

/-! ### Tag merge algorithm (`SnippetRepository.process_tags`) -/

/-- The two-character tag separator `", "` (`TAG_SEPARATOR` in
`repository.py`). -/
def tagSep : List Char := [',', ' ']

/-- Python `s.split(", ")`: split on the two-character separator, scanning
left to right.  `splitTags [] = [[]]` mirrors `"".split(", ") == ['']`. -/
def splitTags : List Char → List (List Char)
  | [] => [[]]
  | [c] => [[c]]
  | c :: d :: rest =>
      if c = ',' ∧ d = ' ' then
        [] :: splitTags rest
      else
        (c :: (splitTags (d :: rest)).headD []) :: (splitTags (d :: rest)).tail

/-- Python `", ".join(pieces)`. -/
def joinTags : List (List Char) → List Char
  | [] => []
  | [x] => x
  | x :: y :: t => x ++ ',' :: ' ' :: joinTags (y :: t)

/-- A tag piece that does not contain the separator `", "` as a substring. -/
def noSep (x : List Char) : Prop :=
  ∀ a b : List Char, x ≠ a ++ ',' :: ' ' :: b

instance (x : List Char) : Decidable (noSep x) := by
  unfold noSep
  induction x with
  | nil => exact .isTrue (by intro a b h; cases a <;> simp_all)
  | cons c rest ih =>
      cases ih with
      | isTrue hr =>
          by_cases hc : c = ',' ∧ rest ≠ [] ∧ rest.head? = some ' '
          · refine .isFalse ?_
            push_neg
            obtain ⟨h1, h2, h3⟩ := hc
            cases rest with
            | nil => simp at h2
            | cons d tl =>
                simp at h3
                exact ⟨[], tl, by simp [h1, h3]⟩
          · refine .isTrue ?_
            intro a b h
            cases a with
            | nil =>
                cases rest with
                | nil => simp at h
                | cons d tl =>
                    simp at h
                    exact hc ⟨h.1, by simp, by simp [h.2.1]⟩
            | cons a0 atl =>
                simp at h
                exact hr atl b h.2
      | isFalse hr =>
          refine .isFalse ?_
          push_neg
          push_neg at hr
          obtain ⟨a, b, hab⟩ := hr
          exact ⟨c :: a, b, by simp [hab]⟩

/-- `SnippetRepository.process_tags` from `repository.py`, verbatim:
parse the existing comma-separated tag string (falsy values parse to the
empty list), then either append each new tag not already present, or remove
the first occurrence of each new tag that is present; optionally sort; and
re-join with `", "`.  The Python string sort is the lexicographic order on
code points, i.e. the list order on `Char`. -/
def processTags (existing : Option String) (newTags : List String)
    (remove : Bool) (sort : Bool) : String :=
  let l0 : List (List Char) :=
    match existing with
    | none => []
    | some s => if s.data = [] then [] else splitTags s.data
  let nt := newTags.map String.data
  let l1 :=
    if remove then
      nt.foldl (fun acc t => acc.erase t) l0
    else
      nt.foldl (fun acc t => if t ∈ acc then acc else acc ++ [t]) l0
  let l2 := if sort then l1.mergeSort (fun a b => decide (a ≤ b)) else l1
  String.mk (joinTags l2)

/-- `InMemorySnippetRepository.search`: optional case-insensitive language
filter, then a linear scan matching the lowered term against title,
description, code; raises `ValueError` (modelled as `none`) when the match
list is empty. -/
def strLower (s : String) : String := String.mk (s.data.map Char.toLower)

/-- Case-insensitive containment, Python `term.lower() in text.lower()`. -/
def containsCI (term text : String) : Bool :=
  let t := (strLower term).data
  let h := (strLower text).data
  (List.range (h.length + 1)).any (fun i => (h.drop i).take t.length == t)

/-- Does this snippet match the in-memory search scan for `term`
(title, then description when present, then code)? -/
def memMatches (term : String) (s : SnippetC) : Bool :=
  containsCI term s.title ||
  (match s.description with
   | some d => d != "" && containsCI term d
   | none => false) ||
  containsCI term s.code

/-- `InMemorySnippetRepository.search` (`in_memory_repository.py`): returns
`none` exactly where the Python code raises `ValueError` (empty result). -/
def memSearch (term : String) (language : Option String) (st : St) :
    Option (List SnippetC) :=
  let snippets : List SnippetC :=
    match language with
    | some lang =>
        if lang = "" then st.entries.map (fun e : Nat × SnippetC => e.2)
        else
          (st.entries.map (fun e : Nat × SnippetC => e.2)).filter
            (fun s => strLower s.language.value == strLower lang)
    | none => st.entries.map (fun e : Nat × SnippetC => e.2)
  let found := snippets.filter (memMatches term)
  if found.length = 0 then none else some found

/-- `InMemorySnippetRepository.tags`: look the snippet up, raise `KeyError`
(modelled as `Except.error`) when it is absent, otherwise store the snippet
back with its tag string replaced by `process_tags`'s result. -/
def memTags (st : St) (i : Nat) (newTags : List String)
    (remove : Bool) (sort : Bool) : Except SnipErr St :=
  match lookupKey i st.entries with
  | none => .error .keyError
  | some s =>
      let s2 := { s with tags := some (processTags s.tags newTags remove sort) }
      .ok ⟨dictInsert i s2 st.entries, st.nextId⟩

/-- The ids that the in-memory backend assigns over a run, in order: each
`add` keys the new snippet by the current `_next_id`. -/
def memAssigned (st : St) : List Op → List Nat
  | [] => []
  | op :: rest =>
      (match op with
        | .add _ => [st.nextId]
        | _ => []) ++ memAssigned (memStep st op).1 rest

/-! ### Relational search with escaping (`DatabaseManager.select_with_filter`,
`SQLModelRepository.search`) -/

/-- Python `s.replace(old, new)` for a one-character `old`: substitute every
occurrence. -/
def pyReplace (cs : List Char) (old : Char) (new : List Char) : List Char :=
  cs.flatMap (fun c => if c = old then new else [c])

/-- The escaping chain of `select_with_filter`:
`term.replace("\\", "\\\\").replace("%", "\\%").replace("_", "\\_")`. -/
def escapeTerm (cs : List Char) : List Char :=
  pyReplace (pyReplace (pyReplace cs '\\' ['\\', '\\']) '%' ['\\', '%'])
    '_' ['\\', '_']

/-- Per-character view of the escaping chain: each special character gains a
leading backslash, every other character is unchanged. -/
def escChar (c : Char) : List Char :=
  if c = '\\' ∨ c = '%' ∨ c = '_' then ['\\', c] else [c]

/-- One token of a SQL `LIKE` pattern. -/
inductive LikeTok where
  | pct
  | usc
  | lit (c : Char)
deriving DecidableEq, Repr

/-- Read a `LIKE` pattern with escape character `\`: `\c` stands for the
literal `c`, `%` matches any run, `_` matches one character, anything else
is literal.  (A trailing lone `\` is read as a literal backslash; the
patterns built below never end in one.) -/
def parseLike : List Char → List LikeTok
  | [] => []
  | ['\\'] => [.lit '\\']
  | c :: d :: rest =>
      if c = '\\' then .lit d :: parseLike rest
      else if c = '%' then .pct :: parseLike (d :: rest)
      else if c = '_' then .usc :: parseLike (d :: rest)
      else .lit c :: parseLike (d :: rest)
  | [c] =>
      if c = '%' then [.pct]
      else if c = '_' then [.usc]
      else [.lit c]

/-- `ILIKE` matching: pattern tokens against a string, comparing literal
characters case-insensitively. -/
def likeMatch : List LikeTok → List Char → Bool
  | [], s => s.isEmpty
  | .pct :: ts, s => s.tails.any (fun suf => likeMatch ts suf)
  | .usc :: ts, s =>
      match s with
      | [] => false
      | _ :: s2 => likeMatch ts s2
  | .lit c :: ts, s =>
      match s with
      | [] => false
      | d :: s2 => (c.toLower == d.toLower) && likeMatch ts s2

/-- `select_with_filter(model, col, term)` against one column: keep the rows
whose (null-coalesced) column value matches `ILIKE '%' + escaped + '%'`
with `ESCAPE '\'`. -/
def selectWithFilter (term : String) (colOf : SnippetC → String)
    (entries : List (Nat × SnippetC)) : List (Nat × SnippetC) :=
  let pat := parseLike ('%' :: escapeTerm term.data ++ ['%'])
  entries.filter (fun e => likeMatch pat (colOf e.2).data)

/-- The `description` column coalesced to `""` (`func.coalesce(column, "")`). -/
def descOr (s : SnippetC) : String :=
  match s.description with
  | some d => d
  | none => ""

/-- Keep the first entry for each id (the `if snippet.id not in all_snippets`
accumulation in `SQLModelRepository.search`). -/
def dedupById (l : List (Nat × SnippetC)) : List (Nat × SnippetC) :=
  (l.foldl
    (fun acc e => if acc.any (fun f => f.1 == e.1) then acc else acc ++ [e])
    [])

/-- `SQLModelRepository.search`: query the three columns in order
(title, code, description), union the hits keyed by id keeping first
occurrence, return `[]` when nothing matched, else apply the optional
case-insensitive language filter. -/
def sqlSearch (term : String) (language : Option String)
    (entries : List (Nat × SnippetC)) : List (Nat × SnippetC) :=
  let allHits := dedupById
    (selectWithFilter term (fun s => s.title) entries ++
     selectWithFilter term (fun s => s.code) entries ++
     selectWithFilter term descOr entries)
  if allHits.isEmpty then []
  else
    match language with
    | some lang =>
        if lang = "" then allHits
        else
          allHits.filter
            (fun e => strLower e.2.language.value == strLower lang)
    | none => allHits

/-- Literal case-insensitive occurrence of `term` in `text`: the lowered term
is a contiguous substring of the lowered text. -/
def occursLit (term text : String) : Prop :=
  ∃ pre post : List Char,
    text.data.map Char.toLower =
      pre ++ term.data.map Char.toLower ++ post

/-! ### Gist reconciliation (`SQLModelRepository.create_gist` / `get_gist` /
`delete_gist` / `add_gist` / `verify_gist_exists`) -/

/-- Modelled from the spec: the `Gist` table row imported by
`sql_model_repository.py` from `snipster.models` is not present under `src/`
(only its constructor calls and the `GistBase` API schema are).  Per the
spec's data model, a gist record carries the remote resource identifier,
the remote URL and the public flag, and is keyed 1:1 by its owning snippet
id ("owning snippet identifier (foreign key, unique — one gist per
snippet)"); the gist store below is therefore an association list keyed by
the snippet id, with a uniqueness constraint on that key. -/
structure GistRec where
  gist_id : String
  gist_url : String
  is_public : Bool
deriving DecidableEq, Repr

/-- Combined relational state for the gist operations: the snippet table and
the gist table (keyed by owning snippet id). -/
structure GState where
  snippets : List (Nat × SnippetC)
  gists : List (Nat × GistRec)
deriving DecidableEq, Repr

/-- Binding of snippet id `i` in the gist table. -/
def gistLookup (i : Nat) (l : List (Nat × GistRec)) : Option GistRec :=
  match l.find? (fun e => e.1 == i) with
  | some e => some e.2
  | none => none

/-- Outcome of the remote `DELETE /gists/{id}` call as seen through
`httpx`: success, a 404 status error, another status error, or a transport
error. -/
inductive DelRes where
  | ok
  | notFound404
  | statusErr
  | connErr
deriving DecidableEq, Repr

/-- Oracle for the remote GitHub gist service: `verify` is the outcome of
`verify_gist_exists` (`status_code == 200`, with `False` on any
`httpx.HTTPError`), `createRes` is the `html_url` returned by the create
call (`none` when the call raises `httpx.HTTPError`), `deleteRes` the
outcome of the delete call. -/
structure Remote where
  verify : String → Bool
  createRes : Option String
  deleteRes : DelRes

/-- `gist_url.split("/")[-1]` in `add_gist`. -/
def gistIdOf (url : String) : String :=
  String.mk (((url.data).splitOn '/').getLastD [])

/-- `SQLModelRepository.get_gist`: return `none` when the owning snippet is
absent; otherwise look the gist up; when a gist is found but the remote
verification probe does not confirm it, delete the local record
(self-healing) and return `none`.  The third component records whether the
remote probe was consulted. -/
def getGist (r : Remote) (sid : Nat) (st : GState) :
    Option GistRec × GState × Bool :=
  match lookupKey sid st.snippets with
  | none => (none, st, false)
  | some _ =>
      match gistLookup sid st.gists with
      | none => (none, st, false)
      | some g =>
          if r.verify g.gist_id then (some g, st, true)
          else
            (none,
             ⟨st.snippets, st.gists.filter (fun e => e.1 != sid)⟩,
             true)

/-- `SQLModelRepository.add_gist`: build the record from the URL and insert
it; a uniqueness violation on the snippet id raises `DuplicateGistError`. -/
def addGist (sid : Nat) (url : String) (isPublic : Bool) (st : GState) :
    Except SnipErr GState :=
  if (gistLookup sid st.gists).isSome then
    .error .duplicateGist
  else
    .ok ⟨st.snippets,
         st.gists ++ [(sid, ⟨gistIdOf url, url, isPublic⟩)]⟩

/-- `SQLModelRepository.create_gist`: refuse when `get_gist` still finds a
gist (`DuplicateGistError`); otherwise call the remote create — on
`httpx.HTTPError` raise `RepositoryError` without touching local state; on
success persist the local record via `add_gist` and return the URL. -/
def createGist (r : Remote) (sid : Nat) (st : GState) (isPublic : Bool) :
    Except SnipErr String × GState :=
  let g1 := getGist r sid st
  match g1.1 with
  | some _ => (.error .duplicateGist, g1.2.1)
  | none =>
      match r.createRes with
      | none => (.error .repositoryError, g1.2.1)
      | some url =>
          match addGist sid url isPublic g1.2.1 with
          | .error e => (.error e, g1.2.1)
          | .ok st2 => (.ok url, st2)

/-- `SQLModelRepository.delete_gist`: fetch the local record without remote
verification (`_fetch_gist_unchecked`), raising `GistNotFoundError` when
absent; call the remote delete — a 404 status is logged and treated as
success, any other failure raises `RepositoryError` before the local record
is touched; finally delete the local record. -/
def deleteGist (r : Remote) (sid : Nat) (st : GState) :
    Except SnipErr Unit × GState :=
  match gistLookup sid st.gists with
  | none => (.error .gistNotFound, st)
  | some _ =>
      match r.deleteRes with
      | .statusErr => (.error .repositoryError, st)
      | .connErr => (.error .repositoryError, st)
      | _ =>
          match (st.gists.filter (fun e => e.1 == sid)).length with
          | 0 => (.error .snippetNotFound, st)
          | 1 => (.ok (), ⟨st.snippets, st.gists.filter (fun e => e.1 != sid)⟩)
          | _ + 2 => (.error .multipleSnippetsFound, st)

/-- Keys stored by a backend state are all below its next id. -/
def keysBounded (st : St) : Prop := ∀ e ∈ st.entries, e.1 < st.nextId

/-- The in-memory/JSON counter is in step with the stored rows: the next id
to hand out is one more than the largest stored id.  This holds from the
empty initial state and is preserved along benign sequences; it is what
keeps the counter-based and the `maxKey`-based id assignments aligned. -/
def counterSynced (st : St) : Prop := maxKey st.entries + 1 = st.nextId

/-- Concrete snippet used by witnesses and counterexamples. -/
def cSnipA : SnippetC := { title := "abc", code := "x" }

/-- Second concrete snippet (distinct (title, language) pair). -/
def cSnipB : SnippetC := { title := "def", code := "y" }

/-- Concrete snippet whose title contains a literal `%`. -/
def cSnipP : SnippetC := { title := "100% done", code := "c" }

/-- Concrete snippet that matches `%0% d%` only if `%` acts as a wildcard. -/
def cSnipQ : SnippetC := { title := "100x done", code := "c" }

/-- Number of stored rows carrying this (title, language) pair. -/
def countPair (s : SnippetC) (l : List (Nat × SnippetC)) : Nat :=
  (l.filter
    (fun e => e.2.title == s.title && e.2.language == s.language)).length

/-- Does any of the three searched columns of this snippet match the escaped
`ILIKE` pattern that `select_with_filter` builds from `term`? -/
def sqlMatches (term : String) (s : SnippetC) : Bool :=
  let pat := parseLike ('%' :: escapeTerm term.data ++ ['%'])
  likeMatch pat s.title.data || likeMatch pat s.code.data ||
    likeMatch pat (descOr s).data

/-! ## Helper lemmas -/

theorem lookupKey_eq_none {i : Nat} {l : List (Nat × SnippetC)}
    (h : ∀ e ∈ l, e.1 ≠ i) : lookupKey i l = none := by
  unfold lookupKey
  have : l.find? (fun e => e.1 == i) = none := by
    rw [List.find?_eq_none]
    intro e he
    simpa using h e he
  rw [this]

theorem lookupKey_isSome_iff {i : Nat} {l : List (Nat × SnippetC)} :
    (lookupKey i l).isSome ↔ ∃ e ∈ l, e.1 = i := by
  unfold lookupKey
  cases hf : l.find? (fun e => e.1 == i) with
  | none =>
      simp only [Option.isSome_none, Bool.false_eq_true, false_iff]
      rw [List.find?_eq_none] at hf
      intro ⟨e, he, hei⟩
      exact hf e he (by simpa using hei)
  | some e =>
      simp only [Option.isSome_some, true_iff]
      have hmem := List.mem_of_find?_eq_some hf
      have hp := List.find?_some hf
      exact ⟨e, hmem, by simpa using hp⟩

theorem memStep_nextId_le (st : St) (op : Op) :
    st.nextId ≤ ((memStep st op).1).nextId := by
  cases op with
  | add s => simp [memStep]
  | del i =>
      by_cases h : (lookupKey i st.entries).isSome <;> simp [memStep, h]
  | get i => simp [memStep]
  | listAll => simp [memStep]

theorem memAssigned_lb (ops : List Op) :
    ∀ st : St, ∀ k ∈ memAssigned st ops, st.nextId ≤ k := by
  induction ops with
  | nil => intro st k hk; simp [memAssigned] at hk
  | cons op rest ih =>
      intro st k hk
      simp only [memAssigned, List.mem_append] at hk
      cases hk with
      | inl h =>
          cases op <;> simp_all
      | inr h =>
          exact le_trans (memStep_nextId_le st op) (ih (memStep st op).1 k h)

/-! ## C9: the in-memory id counter is monotone and never reuses ids -/

/-- C9: In the in-memory backend, the keys assigned to stored snippets over
any operation sequence are strictly increasing (each `add` keys by the
current `_next_id` and increments it, `delete` leaves the counter
untouched), so no id value is ever assigned to two different snippets:
the assigned-id list is duplicate-free. -/
theorem C9_mem_ids_strictly_increase (ops : List Op) (st : St) :
    List.Pairwise (· < ·) (memAssigned st ops) ∧
    (memAssigned st ops).Nodup ∧
    (∀ s, ((memStep st (.add s)).1).nextId = st.nextId + 1) ∧
    (∀ i, ((memStep st (.del i)).1).nextId = st.nextId) := by
  have hpw : ∀ st : St, List.Pairwise (· < ·) (memAssigned st ops) := by
    induction ops with
    | nil => intro st; simp [memAssigned]
    | cons op rest ih =>
        intro st
        cases op with
        | add s =>
            simp only [memAssigned, List.cons_append, List.nil_append,
              List.pairwise_cons]
            refine ⟨?_, ih _⟩
            intro k hk
            have := memAssigned_lb rest (memStep st (.add s)).1 k hk
            simp only [memStep] at this
            omega
        | del i => simpa [memAssigned] using ih (memStep st (.del i)).1
        | get i => simpa [memAssigned] using ih (memStep st (.get i)).1
        | listAll => simpa [memAssigned] using ih (memStep st .listAll).1
  refine ⟨hpw st, (hpw st).imp (fun h => ne_of_lt h), ?_, ?_⟩
  · intro s; simp [memStep]
  · intro i
    by_cases h : (lookupKey i st.entries).isSome <;> simp [memStep, h]

/-! ## C10: `get_gist` for a missing snippet is absent without probing -/

/-- C10: `SQLModelRepository.get_gist` returns absent as soon as the owning
snippet is missing from the snippet store: the result is `none`, the state
(including the gist table) is untouched, and the remote verification probe
is never consulted — even if a local gist record for that id exists. -/
theorem C10_get_gist_snippet_missing (r : Remote) (sid : Nat) (st : GState)
    (h : lookupKey sid st.snippets = none) :
    getGist r sid st = (none, st, false) := by
  unfold getGist
  rw [h]

/-- Witness for C10 at a concrete input: the snippet store is empty while a
gist record for id 1 exists. -/
theorem C10_witness :
    getGist ⟨fun _ => false, none, .ok⟩ 1 ⟨[], [(1, ⟨"g", "u", true⟩)]⟩ =
      (none, ⟨[], [(1, ⟨"g", "u", true⟩)]⟩, false) :=
  C10_get_gist_snippet_missing ⟨fun _ => false, none, .ok⟩ 1
    ⟨[], [(1, ⟨"g", "u", true⟩)]⟩ rfl

/-! ## C2: failed remote create leaves no partial gist state -/

theorem gistLookup_filter_ne (sid : Nat) (l : List (Nat × GistRec)) :
    gistLookup sid (l.filter (fun e => e.1 != sid)) = none := by
  unfold gistLookup
  have : (l.filter (fun e => e.1 != sid)).find? (fun e => e.1 == sid) = none := by
    rw [List.find?_eq_none]
    intro e he
    have := List.of_mem_filter he
    simp_all
  rw [this]

theorem getGist_no_gist (r : Remote) (sid : Nat) (st : GState)
    (h : gistLookup sid st.gists = none) :
    getGist r sid st = (none, st, false) := by
  unfold getGist
  cases hs : lookupKey sid st.snippets with
  | none => rfl
  | some sn => rw [h]

/-- C2: for a snippet id with no existing local gist record, when the remote
creation call fails (`httpx.HTTPError`), `create_gist` fails with the
external-service error (`RepositoryError`) and the state — in particular the
gist table — is exactly the input state: no partial local record.  Moreover
a local record can exist afterwards only if the remote create succeeded
(local persistence strictly after remote success). -/
theorem C2_create_gist_no_partial_state (r : Remote) (sid : Nat) (st : GState)
    (pub : Bool) (h : gistLookup sid st.gists = none) :
    (r.createRes = none →
      createGist r sid st pub = (.error .repositoryError, st)) ∧
    ((gistLookup sid ((createGist r sid st pub).2).gists).isSome →
      r.createRes.isSome) := by
  have hg := getGist_no_gist r sid st h
  constructor
  · intro hc
    unfold createGist
    rw [hg, hc]
  · intro hsome
    unfold createGist at hsome
    rw [hg] at hsome
    cases hc : r.createRes with
    | none => rw [hc] at hsome; simp at hsome; rw [h] at hsome; simp at hsome
    | some url => simp

/-- Witness for C2: empty gist table, remote create call fails. -/
theorem C2_witness :
    (((⟨fun _ => false, none, .ok⟩ : Remote).createRes = none →
      createGist ⟨fun _ => false, none, .ok⟩ 1 ⟨[(1, cSnipA)], []⟩ true =
        (.error .repositoryError, ⟨[(1, cSnipA)], []⟩)) ∧
    ((gistLookup 1
        ((createGist ⟨fun _ => false, none, .ok⟩ 1 ⟨[(1, cSnipA)], []⟩
          true).2).gists).isSome →
      ((⟨fun _ => false, none, .ok⟩ : Remote).createRes).isSome)) :=
  C2_create_gist_no_partial_state ⟨fun _ => false, none, .ok⟩ 1
    ⟨[(1, cSnipA)], []⟩ true rfl

/-! ## C4: `delete_gist` treats a remote 404 as success (idempotent) -/

/-- C4: for a snippet id whose gist table holds exactly one record, when the
remote delete reports 404 (`httpx.HTTPStatusError` with status 404),
`delete_gist` still succeeds and the local gist record is removed: the 404
is logged, not surfaced as an error. -/
theorem C4_delete_gist_404_idempotent (r : Remote) (sid : Nat) (st : GState)
    (h1 : (st.gists.filter (fun e => e.1 == sid)).length = 1)
    (h2 : r.deleteRes = .notFound404) :
    (deleteGist r sid st).1 = .ok () ∧
    gistLookup sid ((deleteGist r sid st).2).gists = none := by
  have hsome : ∃ e ∈ st.gists, e.1 = sid := by
    have hpos : 0 < (st.gists.filter (fun e => e.1 == sid)).length := by omega
    rw [List.length_pos] at hpos
    obtain ⟨e, he⟩ := List.exists_mem_of_ne_nil _ hpos
    exact ⟨e, List.mem_of_mem_filter he, by simpa using List.of_mem_filter he⟩
  obtain ⟨e, he, hei⟩ := hsome
  have hlk : ∃ g, gistLookup sid st.gists = some g := by
    unfold gistLookup
    cases hf : st.gists.find? (fun e => e.1 == sid) with
    | none =>
        rw [List.find?_eq_none] at hf
        exact absurd (by simpa using hei) (hf e he)
    | some g => exact ⟨g.2, rfl⟩
  obtain ⟨g, hg⟩ := hlk
  unfold deleteGist
  rw [hg, h2, h1]
  exact ⟨rfl, gistLookup_filter_ne sid st.gists⟩

/-- Witness for C4: one local gist record, remote delete answers 404. -/
theorem C4_witness :
    (deleteGist ⟨fun _ => true, none, .notFound404⟩ 1
        ⟨[(1, cSnipA)], [(1, ⟨"g", "u", true⟩)]⟩).1 = .ok () ∧
    gistLookup 1
      ((deleteGist ⟨fun _ => true, none, .notFound404⟩ 1
          ⟨[(1, cSnipA)], [(1, ⟨"g", "u", true⟩)]⟩).2).gists = none :=
  C4_delete_gist_404_idempotent ⟨fun _ => true, none, .notFound404⟩ 1
    ⟨[(1, cSnipA)], [(1, ⟨"g", "u", true⟩)]⟩ (by decide) rfl

/-! ## C5: `get_gist` self-heals when the remote probe reports gone -/

/-- C5: for a snippet id whose snippet exists and whose gist table holds a
local record, when the remote verification probe does not confirm the gist
(`verify_gist_exists` returns `False`), `get_gist` deletes the local record
and returns absent; a subsequent `get_gist` for the same id finds nothing. -/
theorem C5_get_gist_self_heals (r : Remote) (sid : Nat) (st : GState)
    (g : GistRec) (sn : SnippetC)
    (hs : lookupKey sid st.snippets = some sn)
    (hg : gistLookup sid st.gists = some g)
    (hv : r.verify g.gist_id = false) :
    (getGist r sid st).1 = none ∧
    gistLookup sid ((getGist r sid st).2.1).gists = none ∧
    (getGist r sid (getGist r sid st).2.1).1 = none := by
  have hrun : getGist r sid st =
      (none, ⟨st.snippets, st.gists.filter (fun e => e.1 != sid)⟩, true) := by
    unfold getGist
    rw [hs, hg]
    simp [hv]
  refine ⟨by rw [hrun], ?_, ?_⟩
  · rw [hrun]
    exact gistLookup_filter_ne sid st.gists
  · rw [hrun]
    have h2 : gistLookup sid
        (⟨st.snippets, st.gists.filter (fun e => e.1 != sid)⟩ : GState).gists =
        none := gistLookup_filter_ne sid st.gists
    rw [getGist_no_gist r sid _ h2]

/-- Witness for C5: snippet 1 exists, a gist record for it exists, the
remote probe denies its existence. -/
theorem C5_witness :
    (getGist ⟨fun _ => false, none, .ok⟩ 1
        ⟨[(1, cSnipA)], [(1, ⟨"g", "u", true⟩)]⟩).1 = none ∧
    gistLookup 1
      ((getGist ⟨fun _ => false, none, .ok⟩ 1
          ⟨[(1, cSnipA)], [(1, ⟨"g", "u", true⟩)]⟩).2.1).gists = none ∧
    (getGist ⟨fun _ => false, none, .ok⟩ 1
        (getGist ⟨fun _ => false, none, .ok⟩ 1
          ⟨[(1, cSnipA)], [(1, ⟨"g", "u", true⟩)]⟩).2.1).1 = none :=
  C5_get_gist_self_heals ⟨fun _ => false, none, .ok⟩ 1
    ⟨[(1, cSnipA)], [(1, ⟨"g", "u", true⟩)]⟩ ⟨"g", "u", true⟩ cSnipA
    rfl rfl rfl

/-! ## C1: observational equivalence of the three backends -/

theorem dictInsert_fresh {k : Nat} {v : SnippetC} {l : List (Nat × SnippetC)}
    (h : lookupKey k l = none) : dictInsert k v l = l ++ [(k, v)] := by
  unfold dictInsert
  rw [h]
  rfl

theorem keysBounded_memStep {st : St} (op : Op) (h : keysBounded st) :
    keysBounded (memStep st op).1 := by
  cases op with
  | add s =>
      intro e he
      simp only [memStep] at he ⊢
      rw [dictInsert_fresh (lookupKey_eq_none fun e he => Nat.ne_of_lt (h e he))]
        at he
      rcases List.mem_append.1 he with h1 | h1
      · exact Nat.lt_succ_of_lt (h e h1)
      · simp only [List.mem_singleton] at h1
        subst h1
        exact Nat.lt_succ_self _
  | del i =>
      by_cases hl : (lookupKey i st.entries).isSome
      · intro e he
        simp only [memStep, hl, if_true] at he ⊢
        exact h e (List.mem_of_mem_filter he)
      · simpa only [memStep, hl, if_false] using h
  | get i => exact h
  | listAll => exact h

theorem mem_le_maxKey {l : List (Nat × SnippetC)} :
    ∀ e ∈ l, e.1 ≤ maxKey l := by
  induction l with
  | nil => intro e he; simp at he
  | cons a t ih =>
      intro e he
      rcases List.mem_cons.1 he with h | h
      · subst h
        simp [maxKey]
      · have := ih e h
        simp only [maxKey]
        omega

theorem exists_mem_maxKey {l : List (Nat × SnippetC)} (h : l ≠ []) :
    ∃ e ∈ l, e.1 = maxKey l := by
  induction l with
  | nil => exact absurd rfl h
  | cons a t ih =>
      by_cases ht : t = []
      · subst ht
        exact ⟨a, by simp, by simp [maxKey]⟩
      · obtain ⟨e, he, hemax⟩ := ih ht
        by_cases hab : maxKey t ≤ a.1
        · refine ⟨a, by simp, ?_⟩
          show a.1 = max a.1 (maxKey t)
          omega
        · refine ⟨e, by simp [he], ?_⟩
          show e.1 = max a.1 (maxKey t)
          omega

theorem maxKey_le {l : List (Nat × SnippetC)} {n : Nat}
    (h : ∀ e ∈ l, e.1 ≤ n) : maxKey l ≤ n := by
  induction l with
  | nil => simp [maxKey]
  | cons a t ih =>
      have h1 := h a (by simp)
      have h2 := ih (fun e he => h e (by simp [he]))
      simp only [maxKey]
      omega

theorem maxKey_append_single (l : List (Nat × SnippetC)) (k : Nat)
    (v : SnippetC) : maxKey (l ++ [(k, v)]) = max (maxKey l) k := by
  induction l with
  | nil => simp [maxKey]
  | cons a t ih =>
      show max a.1 (maxKey (t ++ [(k, v)])) = max (max a.1 (maxKey t)) k
      rw [ih]
      omega

theorem maxKey_filter_ne {l : List (Nat × SnippetC)} {i : Nat}
    (hne : l ≠ []) (hmax : i ≠ maxKey l) :
    maxKey (l.filter (fun e => e.1 != i)) = maxKey l := by
  refine Nat.le_antisymm ?_ ?_
  · exact maxKey_le fun e he => mem_le_maxKey e (List.mem_of_mem_filter he)
  · obtain ⟨e, he, hemax⟩ := exists_mem_maxKey hne
    have hmem : e ∈ l.filter (fun e => e.1 != i) := by
      rw [List.mem_filter]
      refine ⟨he, ?_⟩
      simp only [hemax, bne_iff_ne, ne_eq]
      exact fun hc => hmax hc.symm
    calc maxKey l = e.1 := hemax.symm
      _ ≤ _ := mem_le_maxKey e hmem

theorem keysBounded_of_counterSynced (st : St) (h : counterSynced st) :
    keysBounded st := by
  intro e he
  have := mem_le_maxKey e he
  unfold counterSynced at h
  omega

theorem step_agree {st : St} {op : Op} (hk : keysBounded st)
    (hok : (match op with
      | .add s => !hasDup s st.entries
      | .del i => (st.entries.filter (fun e => e.1 == i)).length == 1 &&
          i != maxKey st.entries
      | .get _ => true
      | .listAll => true) = true) :
    jsonStep st op = memStep st op := by
  cases op with
  | add s =>
      simp only [Bool.not_eq_true'] at hok
      have hfresh : lookupKey st.nextId st.entries = none :=
        lookupKey_eq_none fun e he => Nat.ne_of_lt (hk e he)
      simp [memStep, jsonStep, hok, dictInsert_fresh hfresh]
  | del i =>
      rw [Bool.and_eq_true] at hok
      have hcnt : (st.entries.filter (fun e => e.1 == i)).length = 1 := by
        simpa using hok.1
      have hsome : (lookupKey i st.entries).isSome := by
        rw [lookupKey_isSome_iff]
        have hpos : 0 < (st.entries.filter (fun e => e.1 == i)).length := by
          omega
        rw [List.length_pos] at hpos
        obtain ⟨e, he⟩ := List.exists_mem_of_ne_nil _ hpos
        exact ⟨e, List.mem_of_mem_filter he,
          by simpa using List.of_mem_filter he⟩
      simp [memStep, jsonStep, hsome]
  | get i => rfl
  | listAll => rfl

theorem counterSynced_memStep {st : St} {op : Op} (hs : counterSynced st)
    (hok : (match op with
      | .add s => !hasDup s st.entries
      | .del i => (st.entries.filter (fun e => e.1 == i)).length == 1 &&
          i != maxKey st.entries
      | .get _ => true
      | .listAll => true) = true) :
    counterSynced (memStep st op).1 := by
  cases op with
  | add s =>
      have hfresh : lookupKey st.nextId st.entries = none :=
        lookupKey_eq_none fun e he =>
          Nat.ne_of_lt (keysBounded_of_counterSynced st hs e he)
      show counterSynced ⟨dictInsert st.nextId s st.entries, st.nextId + 1⟩
      unfold counterSynced at hs ⊢
      rw [dictInsert_fresh hfresh]
      simp only [maxKey_append_single]
      omega
  | del i =>
      rw [Bool.and_eq_true] at hok
      have hcnt : (st.entries.filter (fun e => e.1 == i)).length = 1 := by
        simpa using hok.1
      have hi : i ≠ maxKey st.entries := by simpa using hok.2
      have hne : st.entries ≠ [] := by
        intro hc
        rw [hc] at hcnt
        simp at hcnt
      have hsome : (lookupKey i st.entries).isSome := by
        rw [lookupKey_isSome_iff]
        have hpos : 0 < (st.entries.filter (fun e => e.1 == i)).length := by
          omega
        rw [List.length_pos] at hpos
        obtain ⟨e, he⟩ := List.exists_mem_of_ne_nil _ hpos
        exact ⟨e, List.mem_of_mem_filter he,
          by simpa using List.of_mem_filter he⟩
      simp only [memStep, hsome, if_true]
      unfold counterSynced at hs ⊢
      show maxKey (dictRemove i st.entries) + 1 = st.nextId
      unfold dictRemove
      rw [maxKey_filter_ne hne hi]
      exact hs
  | get i => exact hs
  | listAll => exact hs

theorem sql_step_agree {stm sts : St} {op : Op}
    (he : sts.entries = stm.entries) (hs : counterSynced stm)
    (hok : (match op with
      | .add s => !hasDup s stm.entries
      | .del i => (stm.entries.filter (fun e => e.1 == i)).length == 1 &&
          i != maxKey stm.entries
      | .get _ => true
      | .listAll => true) = true) :
    (sqlStep sts op).1.entries = (memStep stm op).1.entries ∧
    (sqlStep sts op).2 = (memStep stm op).2 := by
  cases op with
  | add s =>
      simp only [Bool.not_eq_true'] at hok
      have hfresh : lookupKey stm.nextId stm.entries = none :=
        lookupKey_eq_none fun e he =>
          Nat.ne_of_lt (keysBounded_of_counterSynced stm hs e he)
      unfold counterSynced at hs
      constructor
      · simp [sqlStep, memStep, he, hok, dictInsert_fresh hfresh, hs]
      · simp [sqlStep, memStep, he, hok]
  | del i =>
      rw [Bool.and_eq_true] at hok
      have hcnt : (stm.entries.filter (fun e => e.1 == i)).length = 1 := by
        simpa using hok.1
      have hsome : (lookupKey i stm.entries).isSome := by
        rw [lookupKey_isSome_iff]
        have hpos : 0 < (stm.entries.filter (fun e => e.1 == i)).length := by
          omega
        rw [List.length_pos] at hpos
        obtain ⟨e, he2⟩ := List.exists_mem_of_ne_nil _ hpos
        exact ⟨e, List.mem_of_mem_filter he2,
          by simpa using List.of_mem_filter he2⟩
      have hcnts : (sts.entries.filter (fun e => e.1 == i)).length = 1 := by
        rw [he]
        exact hcnt
      constructor
      · simp only [sqlStep, memStep, hcnts, hsome, if_true]
        unfold dictRemove
        rw [he]
      · simp [sqlStep, memStep, hcnts, hsome]
  | get i =>
      exact ⟨he, by simp [sqlStep, memStep, he]⟩
  | listAll =>
      exact ⟨he, by simp [sqlStep, memStep, he]⟩

theorem json_run_agree (ops : List Op) :
    ∀ st : St, keysBounded st → okSeq st ops = true →
    runOps jsonStep st ops = runOps memStep st ops := by
  induction ops with
  | nil => intro st _ _; rfl
  | cons op rest ih =>
      intro st hk hok
      simp only [okSeq, Bool.and_eq_true] at hok
      obtain ⟨h1, h2⟩ := hok
      have hj := step_agree hk h1
      have ihj := ih (memStep st op).1 (keysBounded_memStep op hk) h2
      have ej : runOps jsonStep st (op :: rest) =
          ((runOps jsonStep (jsonStep st op).1 rest).1,
           (jsonStep st op).2 :: (runOps jsonStep (jsonStep st op).1 rest).2) :=
        rfl
      have em : runOps memStep st (op :: rest) =
          ((runOps memStep (memStep st op).1 rest).1,
           (memStep st op).2 :: (runOps memStep (memStep st op).1 rest).2) :=
        rfl
      rw [ej, em, hj, ihj]

theorem sql_run_agree (ops : List Op) :
    ∀ stm sts : St, sts.entries = stm.entries → counterSynced stm →
    okSeq stm ops = true →
    (runOps sqlStep sts ops).1.entries = (runOps memStep stm ops).1.entries ∧
    (runOps sqlStep sts ops).2 = (runOps memStep stm ops).2 := by
  induction ops with
  | nil => intro stm sts he _ _; exact ⟨he, rfl⟩
  | cons op rest ih =>
      intro stm sts he hsync hok
      simp only [okSeq, Bool.and_eq_true] at hok
      obtain ⟨h1, h2⟩ := hok
      obtain ⟨hentry, hobs⟩ := sql_step_agree he hsync h1
      obtain ⟨ihe, iho⟩ := ih (memStep stm op).1 (sqlStep sts op).1 hentry
        (counterSynced_memStep hsync h1) h2
      have es : runOps sqlStep sts (op :: rest) =
          ((runOps sqlStep (sqlStep sts op).1 rest).1,
           (sqlStep sts op).2 :: (runOps sqlStep (sqlStep sts op).1 rest).2) :=
        rfl
      have em : runOps memStep stm (op :: rest) =
          ((runOps memStep (memStep stm op).1 rest).1,
           (memStep stm op).2 :: (runOps memStep (memStep stm op).1 rest).2) :=
        rfl
      rw [es, em]
      exact ⟨ihe, by rw [hobs, iho]⟩

/-- C1 (amended): the three backends do not produce identical observable
behaviour on all sequences (see `C1_counterexample`); moreover the
relational medium reuses the largest stored id after its row is deleted
(SQLite rowid semantics, `maxKey + 1`), while the in-memory and JSON
counters never reuse ids, so sequences that delete the largest stored id
also diverge.  For every sequence of add/list/get/delete operations in
which every `add` carries a fresh (title, language) pair and every
`delete` targets an id stored exactly once that is not the largest stored
id, the backends — started from a state whose counter is in step with the
stored rows, in particular from the common initial state — produce
identical observable behaviour: the JSON run equals the in-memory run
exactly, and the relational run holds the same stored rows and produces
the same observations (`get`/`list` results compared on snippet content,
without the backend-assigned id field). -/
theorem C1_backends_agree_on_benign_sequences (ops : List Op) (st : St)
    (hsync : counterSynced st) (hok : okSeq st ops = true) :
    runOps jsonStep st ops = runOps memStep st ops ∧
    (runOps sqlStep st ops).1.entries = (runOps memStep st ops).1.entries ∧
    (runOps sqlStep st ops).2 = (runOps memStep st ops).2 :=
  ⟨json_run_agree ops st (keysBounded_of_counterSynced st hsync) hok,
   (sql_run_agree ops st st rfl hsync hok).1,
   (sql_run_agree ops st st rfl hsync hok).2⟩

/-- Witness for C1 (amended) at a concrete benign sequence: two fresh adds,
a get, a delete of a non-maximal present id, and a list, from the common
initial state. -/
theorem C1_witness :
    runOps jsonStep St.init
        [.add cSnipA, .add cSnipB, .get 1, .del 1, .listAll] =
      runOps memStep St.init
        [.add cSnipA, .add cSnipB, .get 1, .del 1, .listAll] ∧
    (runOps sqlStep St.init
        [.add cSnipA, .add cSnipB, .get 1, .del 1, .listAll]).1.entries =
      (runOps memStep St.init
        [.add cSnipA, .add cSnipB, .get 1, .del 1, .listAll]).1.entries ∧
    (runOps sqlStep St.init
        [.add cSnipA, .add cSnipB, .get 1, .del 1, .listAll]).2 =
      (runOps memStep St.init
        [.add cSnipA, .add cSnipB, .get 1, .del 1, .listAll]).2 :=
  C1_backends_agree_on_benign_sequences _ St.init rfl (by decide)

/-- Counterexample to C1 as stated: on the duplicate-add sequence
`[add s, add s, list]` the relational backend errors
(`DuplicateSnippetError`) where the in-memory backend reports success, and
the JSON backend's final `list` differs from the in-memory one (the JSON
backend silently skips the duplicate while the in-memory backend stores a
second copy), so the backends' observable behaviour differs. -/
theorem C1_counterexample :
    (runOps sqlStep St.init [.add cSnipA, .add cSnipA, .listAll]).2 ≠
      (runOps memStep St.init [.add cSnipA, .add cSnipA, .listAll]).2 ∧
    (runOps jsonStep St.init [.add cSnipA, .add cSnipA, .listAll]).2 ≠
      (runOps memStep St.init [.add cSnipA, .add cSnipA, .listAll]).2 := by
  constructor <;> decide

/-! ## C3: duplicate (title, language) adds across the backends -/

theorem countPair_append (s : SnippetC) (l1 l2 : List (Nat × SnippetC)) :
    countPair s (l1 ++ l2) = countPair s l1 + countPair s l2 := by
  unfold countPair
  rw [List.filter_append, List.length_append]

theorem countPair_eq_zero_of_not_hasDup {s : SnippetC}
    {l : List (Nat × SnippetC)} (h : hasDup s l = false) :
    countPair s l = 0 := by
  unfold countPair
  rw [List.length_eq_zero, List.filter_eq_nil_iff]
  intro e he
  unfold hasDup at h
  rw [Bool.eq_false_iff] at h
  intro hp
  exact h (List.any_eq_true.2 ⟨e, he, hp⟩)

theorem countPair_self (s : SnippetC) (k : Nat) :
    countPair s [(k, s)] = 1 := by
  simp [countPair, List.filter]

theorem hasDup_append_self (s : SnippetC) (l : List (Nat × SnippetC))
    (k : Nat) : hasDup s (l ++ [(k, s)]) = true := by
  unfold hasDup
  rw [List.any_eq_true]
  exact ⟨(k, s), by simp, by simp⟩

/-- C3 (amended): only the relational backend rejects a duplicate
(title, language) pair.  From any bounded-key state in which the pair of
`s` is fresh: the relational backend's first `add` succeeds and its second
`add` fails with `DuplicateSnippetError`, leaving exactly one stored row
with that pair; the JSON backend's second `add` silently succeeds without
storing (count stays 1, no error); and the in-memory backend's second `add`
also succeeds and stores a second copy (count becomes 2, no error). -/
theorem C3_duplicate_add_per_backend (st : St) (s : SnippetC)
    (hk : keysBounded st) (h : hasDup s st.entries = false) :
    (sqlStep st (.add s)).2 = .ok ∧
    (sqlStep (sqlStep st (.add s)).1 (.add s)).2 = .err .duplicateSnippet ∧
    countPair s ((sqlStep (sqlStep st (.add s)).1 (.add s)).1).entries = 1 ∧
    (jsonStep (jsonStep st (.add s)).1 (.add s)).2 = .ok ∧
    countPair s ((jsonStep (jsonStep st (.add s)).1 (.add s)).1).entries = 1 ∧
    (memStep (memStep st (.add s)).1 (.add s)).2 = .ok ∧
    countPair s ((memStep (memStep st (.add s)).1 (.add s)).1).entries = 2 := by
  have hc0 : countPair s st.entries = 0 := countPair_eq_zero_of_not_hasDup h
  have hdup1 : hasDup s (st.entries ++ [(st.nextId, s)]) = true :=
    hasDup_append_self s st.entries st.nextId
  have hdupq : hasDup s (st.entries ++ [(maxKey st.entries + 1, s)]) = true :=
    hasDup_append_self s st.entries (maxKey st.entries + 1)
  have hsql1 : sqlStep st (.add s) =
      (⟨st.entries ++ [(maxKey st.entries + 1, s)], st.nextId⟩, .ok) := by
    simp [sqlStep, h]
  have hcountq : countPair s (st.entries ++ [(maxKey st.entries + 1, s)])
      = 1 := by
    rw [countPair_append, hc0, countPair_self]
  have hjson1 : jsonStep st (.add s) =
      (⟨st.entries ++ [(st.nextId, s)], st.nextId + 1⟩, .ok) := by
    simp [jsonStep, h]
  have hfresh : lookupKey st.nextId st.entries = none :=
    lookupKey_eq_none fun e he => Nat.ne_of_lt (hk e he)
  have hmem1 : memStep st (.add s) =
      (⟨st.entries ++ [(st.nextId, s)], st.nextId + 1⟩, .ok) := by
    simp [memStep, dictInsert_fresh hfresh]
  have hcount1 : countPair s (st.entries ++ [(st.nextId, s)]) = 1 := by
    rw [countPair_append, hc0, countPair_self]
  have hfresh2 :
      lookupKey (st.nextId + 1) (st.entries ++ [(st.nextId, s)]) = none := by
    refine lookupKey_eq_none ?_
    intro e he
    rcases List.mem_append.1 he with h1 | h1
    · exact Nat.ne_of_lt (Nat.lt_succ_of_lt (hk e h1))
    · simp only [List.mem_singleton] at h1
      subst h1
      exact Nat.ne_of_lt (Nat.lt_succ_self _)
  refine ⟨by rw [hsql1], ?_, ?_, ?_, ?_, ?_, ?_⟩
  · rw [hsql1]; simp [sqlStep, hdupq]
  · rw [hsql1]; simp only [sqlStep, hdupq, if_true]; exact hcountq
  · rw [hjson1]; simp [jsonStep, hdup1]
  · rw [hjson1]; simp only [jsonStep, hdup1, if_true]; exact hcount1
  · rw [hmem1]; simp [memStep]
  · rw [hmem1]
    simp only [memStep, dictInsert_fresh hfresh2]
    rw [countPair_append, countPair_append, hc0, countPair_self,
      countPair_self]

/-- Witness for C3 (amended): the fresh pair of `cSnipA` on the empty
initial state. -/
theorem C3_witness :
    (sqlStep St.init (.add cSnipA)).2 = .ok ∧
    (sqlStep (sqlStep St.init (.add cSnipA)).1 (.add cSnipA)).2 =
      .err .duplicateSnippet ∧
    countPair cSnipA
      ((sqlStep (sqlStep St.init (.add cSnipA)).1 (.add cSnipA)).1).entries
      = 1 ∧
    (jsonStep (jsonStep St.init (.add cSnipA)).1 (.add cSnipA)).2 = .ok ∧
    countPair cSnipA
      ((jsonStep (jsonStep St.init (.add cSnipA)).1 (.add cSnipA)).1).entries
      = 1 ∧
    (memStep (memStep St.init (.add cSnipA)).1 (.add cSnipA)).2 = .ok ∧
    countPair cSnipA
      ((memStep (memStep St.init (.add cSnipA)).1 (.add cSnipA)).1).entries
      = 2 :=
  C3_duplicate_add_per_backend St.init cSnipA
    (by intro e he; simp [St.init] at he) (by decide)

/-- Counterexample to C3 as stated: in the in-memory backend the second add
of the same (title, language) pair does not fail with a duplicate error —
both adds report success — and the stored count of that pair is 2, not 1. -/
theorem C3_counterexample :
    (runOps memStep St.init [.add cSnipA, .add cSnipA]).2 = [.ok, .ok] ∧
    countPair cSnipA
      ((runOps memStep St.init [.add cSnipA, .add cSnipA]).1).entries = 2 := by
  constructor <;> decide

/-! ## C7: behaviour of search when nothing matches -/

/-- C7 (amended): only the relational backend returns an empty collection
without error when a search matches nothing; the in-memory backend raises
`ValueError` (modelled as `none`) in that situation.  Part one: whenever no
stored row's title, code or coalesced description matches the escaped
pattern built from `term`, `SQLModelRepository.search` returns `[]`, with
or without a language filter.  Part two: whenever no stored snippet passes
the in-memory scan for `term`, `InMemorySnippetRepository.search` raises. -/
theorem C7_empty_search_per_backend :
    (∀ (term : String) (lang : Option String)
        (entries : List (Nat × SnippetC)),
      (∀ e ∈ entries, sqlMatches term e.2 = false) →
        sqlSearch term lang entries = []) ∧
    (∀ (term : String) (lang : Option String) (st : St),
      (∀ e ∈ st.entries, memMatches term e.2 = false) →
        memSearch term lang st = none) := by
  constructor
  · intro term lang entries h
    have hfil : ∀ colOf : SnippetC → String,
        (∀ e ∈ entries, likeMatch
          (parseLike ('%' :: escapeTerm term.data ++ ['%']))
          (colOf e.2).data = false) →
        selectWithFilter term colOf entries = [] := by
      intro colOf hc
      unfold selectWithFilter
      rw [List.filter_eq_nil_iff]
      intro e he
      rw [hc e he]
      simp
    have h1 : selectWithFilter term (fun s => s.title) entries = [] := by
      refine hfil _ fun e he => ?_
      have := h e he
      unfold sqlMatches at this
      simp only [Bool.or_eq_false_iff] at this
      exact this.1.1
    have h2 : selectWithFilter term (fun s => s.code) entries = [] := by
      refine hfil _ fun e he => ?_
      have := h e he
      unfold sqlMatches at this
      simp only [Bool.or_eq_false_iff] at this
      exact this.1.2
    have h3 : selectWithFilter term descOr entries = [] := by
      refine hfil _ fun e he => ?_
      have := h e he
      unfold sqlMatches at this
      simp only [Bool.or_eq_false_iff] at this
      exact this.2
    unfold sqlSearch
    rw [h1, h2, h3]
    simp [dedupById]
  · intro term lang st h
    unfold memSearch
    have hsub : ∀ snippets : List SnippetC,
        (∀ s ∈ snippets, memMatches term s = false) →
        (if (snippets.filter (memMatches term)).length = 0 then
            (none : Option (List SnippetC))
          else some (snippets.filter (memMatches term))) = none := by
      intro snippets hs
      have : snippets.filter (memMatches term) = [] := by
        rw [List.filter_eq_nil_iff]
        intro s hsm
        rw [hs s hsm]
        simp
      rw [this]
      simp
    have hall : ∀ s ∈ st.entries.map (fun e : Nat × SnippetC => e.2),
        memMatches term s = false := by
      intro s hs
      obtain ⟨e, he, rfl⟩ := List.mem_map.1 hs
      exact h e he
    cases lang with
    | none => exact hsub _ hall
    | some lg =>
        by_cases hlg : lg = ""
        · simp only [hlg, if_pos rfl]
          exact hsub _ hall
        · simp only [if_neg hlg]
          refine hsub _ ?_
          intro s hs
          exact hall s (List.mem_of_mem_filter hs)

/-- Witness for C7 (amended): the term `zzz` matches nothing in a one-row
store; the relational search returns `[]`, the in-memory search raises. -/
theorem C7_witness :
    sqlSearch "zzz" none [(1, cSnipA)] = [] ∧
    memSearch "zzz" none ⟨[(1, cSnipA)], 2⟩ = none :=
  ⟨C7_empty_search_per_backend.1 "zzz" none [(1, cSnipA)] (by decide),
   C7_empty_search_per_backend.2 "zzz" none ⟨[(1, cSnipA)], 2⟩ (by decide)⟩

/-- Counterexample to C7 as stated: the in-memory backend implements search
but raises `ValueError` (modelled as `none`) when the term matches no
stored snippet, instead of returning an empty collection. -/
theorem C7_counterexample : memSearch "zzz" none St.init = none := by
  decide

/-! ## C8: tag add-then-remove round trip -/

theorem noSep_of_cons {c : Char} {x : List Char} (h : noSep (c :: x)) :
    noSep x := by
  intro a b hab
  exact h (c :: a) b (by simp [hab])

theorem splitTags_noSep {x : List Char} (h : noSep x) : splitTags x = [x] := by
  induction x with
  | nil => rfl
  | cons c rest ih =>
      cases rest with
      | nil => rfl
      | cons d rest2 =>
          have hcd : ¬(c = ',' ∧ d = ' ') := by
            intro ⟨h1, h2⟩
            exact h [] rest2 (by simp [h1, h2])
          rw [splitTags, if_neg hcd, ih (noSep_of_cons h)]
          rfl

theorem splitTags_append_sep {x : List Char} (r : List Char) (h : noSep x) :
    splitTags (x ++ ',' :: ' ' :: r) = x :: splitTags r := by
  induction x with
  | nil =>
      show splitTags (',' :: ' ' :: r) = [] :: splitTags r
      rw [splitTags, if_pos ⟨rfl, rfl⟩]
  | cons c x2 ih =>
      have hx2 := ih (noSep_of_cons h)
      cases x2 with
      | nil =>
          have hcd : ¬(c = ',' ∧ ',' = ' ') := by
            intro ⟨h1, h2⟩
            exact absurd h2 (by decide)
          show splitTags (c :: ',' :: ' ' :: r) = [c] :: splitTags r
          rw [splitTags, if_neg hcd]
          simp only [List.nil_append] at hx2
          rw [hx2]
          rfl
      | cons e x3 =>
          have hcd : ¬(c = ',' ∧ e = ' ') := by
            intro ⟨h1, h2⟩
            exact h [] x3 (by simp [h1, h2])
          show splitTags (c :: e :: (x3 ++ ',' :: ' ' :: r)) =
            (c :: e :: x3) :: splitTags r
          rw [splitTags, if_neg hcd]
          simp only [List.cons_append] at hx2
          rw [hx2]
          rfl

theorem splitTags_joinTags {l : List (List Char)} (h : ∀ x ∈ l, noSep x)
    (hne : l ≠ []) : splitTags (joinTags l) = l := by
  induction l with
  | nil => exact absurd rfl hne
  | cons x t ih =>
      cases t with
      | nil => exact splitTags_noSep (h x (by simp))
      | cons y t2 =>
          rw [joinTags, splitTags_append_sep _ (h x (by simp)),
            ih (fun z hz => h z (by simp [hz])) (by simp)]

theorem joinTags_ne_nil {l : List (List Char)} (h : ∀ x ∈ l, x ≠ [])
    (hne : l ≠ []) : joinTags l ≠ [] := by
  cases l with
  | nil => exact absurd rfl hne
  | cons x t =>
      cases t with
      | nil => exact h x (by simp)
      | cons y t2 =>
          rw [joinTags]
          intro hc
          rcases List.append_eq_nil.1 hc with ⟨_, h2⟩
          simp at h2

theorem addFold_eq_append {T l : List (List Char)} (h : ∀ t ∈ T, t ∉ l)
    (hnd : T.Nodup) :
    T.foldl (fun acc t => if t ∈ acc then acc else acc ++ [t]) l = l ++ T := by
  induction T generalizing l with
  | nil => simp
  | cons t T2 ih =>
      rw [List.foldl_cons, if_neg (h t (by simp))]
      rw [List.nodup_cons] at hnd
      have hres := ih (l := l ++ [t]) ?_ hnd.2
      · rw [hres, List.append_assoc]
        rfl
      · intro t2 ht2
        rw [List.mem_append, List.mem_singleton]
        push_neg
        exact ⟨h t2 (by simp [ht2]), fun hc => hnd.1 (hc ▸ ht2)⟩

theorem eraseFold_append {T l : List (List Char)} (h : ∀ t ∈ T, t ∉ l)
    (hnd : T.Nodup) :
    T.foldl (fun acc t => acc.erase t) (l ++ T) = l := by
  induction T generalizing l with
  | nil => simp
  | cons t T2 ih =>
      rw [List.nodup_cons] at hnd
      rw [List.foldl_cons]
      have he : (l ++ t :: T2).erase t = l ++ T2 := by
        rw [List.erase_append_right _ (h t (by simp)), List.erase_cons_head]
      rw [he]
      exact ih (fun t2 ht2 => h t2 (by simp [ht2])) hnd.2

theorem erase_beq_eq (m : List (List Char)) (t : List Char) :
    m.erase t = @List.erase _ instBEqOfDecidableEq m t := by
  induction m with
  | nil => rfl
  | cons x m ih =>
      by_cases h : x = t <;> simp [List.erase_cons, h, ih]

theorem perm_erase_tag (t : List Char) {m m2 : List (List Char)}
    (p : m.Perm m2) : (m.erase t).Perm (m2.erase t) := by
  rw [erase_beq_eq m t, erase_beq_eq m2 t]
  exact p.erase t

theorem eraseFold_perm {T m m2 : List (List Char)} (p : m.Perm m2) :
    (T.foldl (fun acc t => acc.erase t) m).Perm
      (T.foldl (fun acc t => acc.erase t) m2) := by
  induction T generalizing m m2 with
  | nil => exact p
  | cons t T2 ih =>
      simp only [List.foldl_cons]
      exact ih (perm_erase_tag t p)

/-- The comparison used by the Python `list.sort()` on strings: the
lexicographic order on code points. -/
theorem tagLe_trans (a b c : List Char) :
    (fun a b : List Char => decide (a ≤ b)) a b →
    (fun a b : List Char => decide (a ≤ b)) b c →
    (fun a b : List Char => decide (a ≤ b)) a c := by
  intro h1 h2
  simp only [decide_eq_true_eq] at h1 h2 ⊢
  exact le_trans h1 h2

theorem tagLe_total (a b : List Char) :
    ((fun a b : List Char => decide (a ≤ b)) a b ||
      (fun a b : List Char => decide (a ≤ b)) b a) = true := by
  simp only [Bool.or_eq_true, decide_eq_true_eq]
  exact le_total a b

theorem parse_join (m : List (List Char)) (hm : ∀ x ∈ m, x ≠ [] ∧ noSep x) :
    (if joinTags m = [] then [] else splitTags (joinTags m)) = m := by
  by_cases h : m = []
  · subst h
    simp [joinTags]
  · rw [if_neg (joinTags_ne_nil (fun x hx => (hm x hx).1) h)]
    exact splitTags_joinTags (fun x hx => (hm x hx).2) h

theorem processTags_some (x : List Char) (T : List String)
    (remove sort : Bool) :
    processTags (some (String.mk x)) T remove sort =
      String.mk (joinTags (
        if sort then
          (if remove then
            (T.map String.data).foldl (fun acc t => acc.erase t)
              (if x = [] then [] else splitTags x)
           else
            (T.map String.data).foldl
              (fun acc t => if t ∈ acc then acc else acc ++ [t])
              (if x = [] then [] else splitTags x)).mergeSort
            (fun a b => decide (a ≤ b))
        else
          (if remove then
            (T.map String.data).foldl (fun acc t => acc.erase t)
              (if x = [] then [] else splitTags x)
           else
            (T.map String.data).foldl
              (fun acc t => if t ∈ acc then acc else acc ++ [t])
              (if x = [] then [] else splitTags x)))) := by
  unfold processTags
  cases sort <;> cases remove <;> rfl

/-- C8 (amended): the add-then-remove round trip holds only for tag
sequences of pairwise-distinct, nonempty, separator-free tags none of which
is already stored (see `C8_counterexample` for a stored tag).  Under those
conditions, with `sort := False` the tag string returns exactly to its
prior value, and with `sort := True` it returns to the sorted permutation
of the prior tag list, as the sort flag dictates. -/
theorem C8_tags_roundtrip (l : List (List Char)) (T : List String)
    (hl : ∀ x ∈ l, x ≠ [] ∧ noSep x)
    (hT : ∀ t ∈ T, t.data ≠ [] ∧ noSep t.data ∧ t.data ∉ l)
    (hnd : (T.map String.data).Nodup) :
    processTags
        (some (processTags (some (String.mk (joinTags l))) T false false))
        T true false = String.mk (joinTags l) ∧
    processTags
        (some (processTags (some (String.mk (joinTags l))) T false true))
        T true true =
      String.mk (joinTags (l.mergeSort (fun a b => decide (a ≤ b)))) := by
  have hfresh : ∀ t ∈ T.map String.data, t ∉ l := by
    intro t ht
    obtain ⟨u, hu, rfl⟩ := List.mem_map.1 ht
    exact (hT u hu).2.2
  have hparse : (if joinTags l = [] then [] else splitTags (joinTags l)) = l :=
    parse_join l hl
  have hadd : (T.map String.data).foldl
      (fun acc t => if t ∈ acc then acc else acc ++ [t]) l =
      l ++ T.map String.data := addFold_eq_append hfresh hnd
  have hprops : ∀ x ∈ l ++ T.map String.data, x ≠ [] ∧ noSep x := by
    intro x hx
    rcases List.mem_append.1 hx with h1 | h1
    · exact hl x h1
    · obtain ⟨u, hu, rfl⟩ := List.mem_map.1 h1
      exact ⟨(hT u hu).1, (hT u hu).2.1⟩
  have hinner1 : processTags (some (String.mk (joinTags l))) T false false =
      String.mk (joinTags (l ++ T.map String.data)) := by
    rw [processTags_some (joinTags l) T false false]
    simp only [Bool.false_eq_true, if_false]
    rw [hparse, hadd]
  have hinner2 : processTags (some (String.mk (joinTags l))) T false true =
      String.mk (joinTags ((l ++ T.map String.data).mergeSort
        (fun a b => decide (a ≤ b)))) := by
    rw [processTags_some (joinTags l) T false true]
    simp only [Bool.false_eq_true, if_false, eq_self_iff_true, if_true]
    rw [hparse, hadd]
  constructor
  · rw [hinner1]
    rw [processTags_some (joinTags (l ++ T.map String.data)) T true false]
    simp only [Bool.false_eq_true, if_false, eq_self_iff_true, if_true]
    rw [parse_join _ hprops, eraseFold_append hfresh hnd]
  · rw [hinner2]
    rw [processTags_some
      (joinTags ((l ++ T.map String.data).mergeSort
        (fun a b => decide (a ≤ b)))) T true true]
    simp only [Bool.false_eq_true, if_false, eq_self_iff_true, if_true]
    have hMprops : ∀ x ∈ (l ++ T.map String.data).mergeSort
        (fun a b => decide (a ≤ b)), x ≠ [] ∧ noSep x := by
      intro x hx
      exact hprops x (List.mem_mergeSort.1 hx)
    rw [parse_join _ hMprops]
    have hpermE : ((T.map String.data).foldl (fun acc t => acc.erase t)
        ((l ++ T.map String.data).mergeSort (fun a b => decide (a ≤ b)))).Perm
        l := by
      have h1 := eraseFold_perm (T := T.map String.data)
        (List.mergeSort_perm (l ++ T.map String.data)
          (fun a b => decide (a ≤ b)))
      rw [eraseFold_append hfresh hnd] at h1
      exact h1
    refine congrArg (fun z => String.mk (joinTags z)) ?_
    have hperm : (((T.map String.data).foldl (fun acc t => acc.erase t)
        ((l ++ T.map String.data).mergeSort
          (fun a b => decide (a ≤ b)))).mergeSort
            (fun a b => decide (a ≤ b))).Perm
        (l.mergeSort (fun a b => decide (a ≤ b))) :=
      ((List.mergeSort_perm _ _).trans hpermE).trans
        (List.mergeSort_perm l _).symm
    haveI : IsAntisymm (List Char) (fun a b => a ≤ b) :=
      ⟨fun a b h1 h2 => le_antisymm h1 h2⟩
    refine List.eq_of_perm_of_sorted (r := fun a b : List Char => a ≤ b)
      hperm ?_ ?_
    · exact (List.sorted_mergeSort tagLe_trans tagLe_total _).imp
        (fun h => of_decide_eq_true h)
    · exact (List.sorted_mergeSort tagLe_trans tagLe_total _).imp
        (fun h => of_decide_eq_true h)

/-- Witness for C8 (amended): prior tags `"b, a"`, adding then removing the
fresh tag `"c"`, with both sort flags. -/
theorem C8_witness :
    processTags
        (some (processTags
          (some (String.mk (joinTags [['b'], ['a']]))) ["c"] false false))
        ["c"] true false = String.mk (joinTags [['b'], ['a']]) ∧
    processTags
        (some (processTags
          (some (String.mk (joinTags [['b'], ['a']]))) ["c"] false true))
        ["c"] true true =
      String.mk (joinTags
        ([['b'], ['a']].mergeSort (fun a b => decide (a ≤ b)))) :=
  C8_tags_roundtrip [['b'], ['a']] ["c"]
    (by intro x hx; refine ⟨?_, ?_⟩ <;> simp at hx <;>
        rcases hx with h | h <;> subst h <;> first | simp | decide)
    (by intro t ht; simp at ht; subst ht; refine ⟨by simp, by decide, by decide⟩)
    (by simp)

/-- Counterexample to C8 as stated: with the stored tag string `"b"` and
the tag sequence `("b")`, the add pass is a no-op (the tag is already
present) but the remove pass deletes it, so the round trip ends at `""`
instead of the prior value `"b"`. -/
theorem C8_counterexample :
    processTags (some (processTags (some "b") ["b"] false false))
      ["b"] true false ≠ "b" := by
  decide

/-! ## C6: the escaped relational search matches only literal occurrences -/

theorem pyReplace_cons (c : Char) (cs : List Char) (old : Char)
    (new : List Char) :
    pyReplace (c :: cs) old new =
      (if c = old then new else [c]) ++ pyReplace cs old new := by
  unfold pyReplace
  rw [List.flatMap_cons]

theorem pyReplace_append (a b : List Char) (old : Char) (new : List Char) :
    pyReplace (a ++ b) old new = pyReplace a old new ++ pyReplace b old new := by
  unfold pyReplace
  rw [List.flatMap_append]

theorem escapeTerm_eq_flatMap (cs : List Char) :
    escapeTerm cs = cs.flatMap escChar := by
  induction cs with
  | nil => rfl
  | cons c cs ih =>
      unfold escapeTerm at ih ⊢
      rw [pyReplace_cons, pyReplace_append, pyReplace_append, ih,
        List.flatMap_cons]
      congr 1
      by_cases h1 : c = '\\'
      · subst h1
        decide
      · by_cases h2 : c = '%'
        · subst h2
          decide
        · by_cases h3 : c = '_'
          · subst h3
            decide
          · simp [pyReplace, escChar, h1, h2, h3]

theorem parseLike_flatMap_escChar (cs : List Char) (d : Char)
    (rest : List Char) :
    parseLike (cs.flatMap escChar ++ d :: rest) =
      cs.map LikeTok.lit ++ parseLike (d :: rest) := by
  induction cs with
  | nil => rfl
  | cons c cs ih =>
      rw [List.flatMap_cons]
      by_cases hs : c = '\\' ∨ c = '%' ∨ c = '_'
      · rw [show escChar c = ['\\', c] from if_pos hs]
        rw [show (['\\', c] ++ cs.flatMap escChar ++ d :: rest) =
          '\\' :: c :: (cs.flatMap escChar ++ d :: rest) by simp]
        rw [parseLike, if_pos rfl, ih]
        rfl
      · rw [show escChar c = [c] from if_neg hs]
        push_neg at hs
        obtain ⟨e, rest2, heq⟩ : ∃ e rest2,
            cs.flatMap escChar ++ d :: rest = e :: rest2 := by
          cases h : cs.flatMap escChar ++ d :: rest with
          | nil => simp at h
          | cons e rest2 => exact ⟨e, rest2, rfl⟩
        rw [show ([c] ++ cs.flatMap escChar ++ d :: rest) =
          c :: (cs.flatMap escChar ++ d :: rest) by simp]
        rw [heq, parseLike, if_neg hs.1, if_neg hs.2.1, if_neg hs.2.2,
          ← heq, ih]
        rfl

theorem likeMatch_nil_iff (s : List Char) :
    likeMatch [] s = true ↔ s = [] := by
  rw [likeMatch]
  exact List.isEmpty_iff

theorem likeMatch_pct_iff (ts : List LikeTok) (s : List Char) :
    likeMatch (.pct :: ts) s = true ↔
      ∃ pre suf, s = pre ++ suf ∧ likeMatch ts suf = true := by
  rw [likeMatch, List.any_eq_true]
  constructor
  · intro ⟨suf, hmem, hm⟩
    obtain ⟨pre, hpre⟩ := (List.mem_tails suf s).1 hmem
    exact ⟨pre, suf, hpre.symm, hm⟩
  · intro ⟨pre, suf, heq, hm⟩
    exact ⟨suf, (List.mem_tails suf s).2 ⟨pre, heq.symm⟩, hm⟩

theorem likeMatch_lit_chain_iff (cs : List Char) (ts : List LikeTok)
    (s : List Char) :
    likeMatch (cs.map .lit ++ ts) s = true ↔
      ∃ pre suf, s = pre ++ suf ∧
        pre.map Char.toLower = cs.map Char.toLower ∧
        likeMatch ts suf = true := by
  induction cs generalizing s with
  | nil =>
      simp only [List.map_nil, List.nil_append]
      constructor
      · intro h
        exact ⟨[], s, rfl, rfl, h⟩
      · intro ⟨pre, suf, hs, hpre, hm⟩
        rw [List.map_eq_nil_iff] at hpre
        subst hpre
        rw [List.nil_append] at hs
        subst hs
        exact hm
  | cons c cs ih =>
      cases s with
      | nil =>
          simp only [List.map_cons, List.cons_append, likeMatch]
          constructor
          · intro h
            simp at h
          · intro ⟨pre, suf, hs, hpre, hm⟩
            rcases List.append_eq_nil.1 hs.symm with ⟨h1, _⟩
            subst h1
            simp at hpre
      | cons d s2 =>
          rw [List.map_cons, List.cons_append,
            show likeMatch (.lit c :: (cs.map .lit ++ ts)) (d :: s2) =
              ((c.toLower == d.toLower) &&
                likeMatch (cs.map .lit ++ ts) s2) from rfl,
            Bool.and_eq_true, beq_iff_eq, ih]
          constructor
          · intro ⟨hcd, pre, suf, hs, hpre, hm⟩
            exact ⟨d :: pre, suf, by rw [hs]; rfl,
              by simp [hpre, hcd.symm], hm⟩
          · intro ⟨pre, suf, hs, hpre, hm⟩
            cases pre with
            | nil => simp at hpre
            | cons p0 pre2 =>
                simp only [List.map_cons, List.cons.injEq] at hpre
                simp only [List.cons_append, List.cons.injEq] at hs
                exact ⟨by rw [hs.1]; exact hpre.1.symm, pre2, suf, hs.2,
                  hpre.2, hm⟩

theorem likeMatch_pct_singleton (s : List Char) :
    likeMatch [.pct] s = true := by
  rw [likeMatch_pct_iff]
  exact ⟨s, [], by simp, by rw [likeMatch]; rfl⟩

/-- The full `'%' + escaped term + '%'` pattern matches exactly the strings
containing the term literally, case-insensitively. -/
theorem likeMatch_escaped_iff (term s : List Char) :
    likeMatch (parseLike ('%' :: escapeTerm term ++ ['%'])) s = true ↔
      ∃ pre mid post, s = pre ++ (mid ++ post) ∧
        mid.map Char.toLower = term.map Char.toLower := by
  have hp : parseLike ('%' :: escapeTerm term ++ ['%']) =
      .pct :: (term.map .lit ++ [.pct]) := by
    rw [escapeTerm_eq_flatMap]
    obtain ⟨e, rest2, heq⟩ : ∃ e rest2,
        term.flatMap escChar ++ ['%'] = e :: rest2 := by
      cases h : term.flatMap escChar ++ ['%'] with
      | nil => simp at h
      | cons e rest2 => exact ⟨e, rest2, rfl⟩
    rw [show ('%' :: term.flatMap escChar ++ ['%']) =
      '%' :: (term.flatMap escChar ++ ['%']) by simp]
    rw [heq, parseLike]
    rw [if_neg (by decide), if_pos rfl, ← heq,
      parseLike_flatMap_escChar term '%' []]
    rfl
  rw [hp, likeMatch_pct_iff]
  constructor
  · intro ⟨pre, suf, hs, hm⟩
    rw [likeMatch_lit_chain_iff] at hm
    obtain ⟨mid, suf2, hsuf, hmid, hm2⟩ := hm
    exact ⟨pre, mid, suf2, by rw [hs, hsuf], hmid⟩
  · intro ⟨pre, mid, post, hs, hmid⟩
    refine ⟨pre, mid ++ post, hs, ?_⟩
    rw [likeMatch_lit_chain_iff]
    exact ⟨mid, post, rfl, hmid, likeMatch_pct_singleton post⟩

/-- Bridge to `occursLit`: matching the escaped pattern is exactly literal
case-insensitive containment. -/
theorem likeMatch_iff_occursLit (term col : String) :
    likeMatch (parseLike ('%' :: escapeTerm term.data ++ ['%'])) col.data
        = true ↔ occursLit term col := by
  rw [likeMatch_escaped_iff]
  unfold occursLit
  constructor
  · intro ⟨pre, mid, post, hs, hmid⟩
    refine ⟨pre.map Char.toLower, post.map Char.toLower, ?_⟩
    rw [hs]
    simp [hmid]
  · intro ⟨pre, post, h⟩
    rw [List.map_eq_append_iff] at h
    obtain ⟨l1, l2, hcol, hl1, hl2⟩ := h
    rw [List.map_eq_append_iff] at hl1
    obtain ⟨m1, m2, hsplit, hm1, hm2⟩ := hl1
    refine ⟨m1, m2, l2, ?_, hm2⟩
    rw [hcol, hsplit, List.append_assoc]

theorem mem_dedupById_aux (e : Nat × SnippetC) :
    ∀ (l acc : List (Nat × SnippetC)),
    (∀ a ∈ acc, ∀ b ∈ l, a.1 = b.1 → a = b) →
    (∀ a ∈ l, ∀ b ∈ l, a.1 = b.1 → a = b) →
    (e ∈ l.foldl
      (fun acc e => if acc.any (fun f => f.1 == e.1) then acc else acc ++ [e])
      acc ↔ e ∈ acc ∨ e ∈ l) := by
  intro l
  induction l with
  | nil => intro acc h1 h2; simp
  | cons b l2 ih =>
      intro acc h1 h2
      rw [List.foldl_cons]
      by_cases hany : acc.any (fun f => f.1 == b.1)
      · rw [if_pos hany]
        obtain ⟨a, ha, hab⟩ := List.any_eq_true.1 hany
        have hae : a = b := h1 a ha b (by simp) (by simpa using hab)
        have hb_acc : b ∈ acc := hae ▸ ha
        rw [ih acc (fun a ha b hb hab => h1 a ha b (by simp [hb]) hab)
          (fun a ha b hb hab => h2 a (by simp [ha]) b (by simp [hb]) hab)]
        constructor
        · intro h
          rcases h with h | h
          · exact Or.inl h
          · exact Or.inr (by simp [h])
        · intro h
          rcases h with h | h
          · exact Or.inl h
          · rcases List.mem_cons.1 h with h | h
            · exact Or.inl (h ▸ hb_acc)
            · exact Or.inr h
      · rw [if_neg hany]
        have h1' : ∀ a ∈ acc ++ [b], ∀ c ∈ l2, a.1 = c.1 → a = c := by
          intro a ha c hc hac
          rcases List.mem_append.1 ha with h | h
          · exact h1 a h c (by simp [hc]) hac
          · simp only [List.mem_singleton] at h
            subst h
            exact h2 a (by simp) c (by simp [hc]) hac
        rw [ih (acc ++ [b]) h1'
          (fun a ha c hc hac => h2 a (by simp [ha]) c (by simp [hc]) hac)]
        simp only [List.mem_append, List.mem_singleton, List.mem_cons]
        tauto

theorem mem_dedupById {l : List (Nat × SnippetC)}
    (hfun : ∀ a ∈ l, ∀ b ∈ l, a.1 = b.1 → a = b) (e : Nat × SnippetC) :
    e ∈ dedupById l ↔ e ∈ l := by
  unfold dedupById
  rw [mem_dedupById_aux e l [] (by intro a ha; simp at ha) hfun]
  simp

/-- C6: for every search term containing a wildcard or escape character
(`%`, `_` or `\`), over a relational table with unique ids, the relational
backend's search (no language filter) returns exactly the stored snippets
in which the term occurs literally, case-insensitively, in title, code or
coalesced description — wildcard characters of the term never act as
wildcards. -/
theorem C6_sql_search_matches_literally (term : String)
    (entries : List (Nat × SnippetC)) (i : Nat) (s : SnippetC)
    (_hw : '%' ∈ term.data ∨ '_' ∈ term.data ∨ '\\' ∈ term.data)
    (hnd : (entries.map (fun e => e.1)).Nodup) :
    (i, s) ∈ sqlSearch term none entries ↔
      ((i, s) ∈ entries ∧
        (occursLit term s.title ∨ occursLit term s.code ∨
          occursLit term (descOr s))) := by
  have hinj : ∀ a ∈ entries, ∀ b ∈ entries, a.1 = b.1 → a = b :=
    List.inj_on_of_nodup_map hnd
  set pat := parseLike ('%' :: escapeTerm term.data ++ ['%']) with hpat
  have hmemL : ∀ e : Nat × SnippetC,
      e ∈ (selectWithFilter term (fun s => s.title) entries ++
        selectWithFilter term (fun s => s.code) entries ++
        selectWithFilter term descOr entries) ↔
      (e ∈ entries ∧
        (likeMatch pat e.2.title.data = true ∨
         likeMatch pat e.2.code.data = true ∨
         likeMatch pat (descOr e.2).data = true)) := by
    intro e
    unfold selectWithFilter
    rw [← hpat]
    simp only [List.mem_append, List.mem_filter]
    constructor
    · intro h
      rcases h with (h | h) | h
      · exact ⟨h.1, Or.inl h.2⟩
      · exact ⟨h.1, Or.inr (Or.inl h.2)⟩
      · exact ⟨h.1, Or.inr (Or.inr h.2)⟩
    · intro ⟨hmem, h⟩
      rcases h with h | h | h
      · exact Or.inl (Or.inl ⟨hmem, h⟩)
      · exact Or.inl (Or.inr ⟨hmem, h⟩)
      · exact Or.inr ⟨hmem, h⟩
  have hfunL : ∀ a ∈ (selectWithFilter term (fun s => s.title) entries ++
        selectWithFilter term (fun s => s.code) entries ++
        selectWithFilter term descOr entries),
      ∀ b ∈ (selectWithFilter term (fun s => s.title) entries ++
        selectWithFilter term (fun s => s.code) entries ++
        selectWithFilter term descOr entries), a.1 = b.1 → a = b := by
    intro a ha b hb hab
    exact hinj a ((hmemL a).1 ha).1 b ((hmemL b).1 hb).1 hab
  show ((i, s) ∈ (if (dedupById
      (selectWithFilter term (fun s => s.title) entries ++
        selectWithFilter term (fun s => s.code) entries ++
        selectWithFilter term descOr entries)).isEmpty = true then []
      else dedupById
        (selectWithFilter term (fun s => s.title) entries ++
          selectWithFilter term (fun s => s.code) entries ++
          selectWithFilter term descOr entries))) ↔ _
  by_cases hempty : (dedupById
      (selectWithFilter term (fun s => s.title) entries ++
        selectWithFilter term (fun s => s.code) entries ++
        selectWithFilter term descOr entries)).isEmpty
  · rw [if_pos hempty]
    rw [List.isEmpty_iff] at hempty
    simp only [List.not_mem_nil, false_iff]
    intro ⟨hmem, hocc⟩
    have hlm : (i, s) ∈ dedupById
        (selectWithFilter term (fun s => s.title) entries ++
          selectWithFilter term (fun s => s.code) entries ++
          selectWithFilter term descOr entries) := by
      rw [mem_dedupById hfunL]
      rw [hmemL (i, s)]
      refine ⟨hmem, ?_⟩
      rcases hocc with h | h | h
      · exact Or.inl ((likeMatch_iff_occursLit term s.title).2 h)
      · exact Or.inr (Or.inl ((likeMatch_iff_occursLit term s.code).2 h))
      · exact Or.inr (Or.inr ((likeMatch_iff_occursLit term (descOr s)).2 h))
    rw [hempty] at hlm
    exact List.not_mem_nil _ hlm
  · rw [if_neg hempty]
    rw [mem_dedupById hfunL, hmemL (i, s)]
    constructor
    · intro ⟨hmem, h⟩
      refine ⟨hmem, ?_⟩
      rcases h with h | h | h
      · exact Or.inl ((likeMatch_iff_occursLit term s.title).1 h)
      · exact Or.inr (Or.inl ((likeMatch_iff_occursLit term s.code).1 h))
      · exact Or.inr (Or.inr ((likeMatch_iff_occursLit term (descOr s)).1 h))
    · intro ⟨hmem, h⟩
      refine ⟨hmem, ?_⟩
      rcases h with h | h | h
      · exact Or.inl ((likeMatch_iff_occursLit term s.title).2 h)
      · exact Or.inr (Or.inl ((likeMatch_iff_occursLit term s.code).2 h))
      · exact Or.inr (Or.inr ((likeMatch_iff_occursLit term (descOr s)).2 h))

/-- Witness for C6 at a concrete corpus: the term `0% d` (which contains a
literal `%`) against one row containing it literally and one row that only
a wildcard reading would match. -/
theorem C6_witness :
    ((1, cSnipP) ∈ sqlSearch "0% d" none [(1, cSnipP), (2, cSnipQ)] ↔
      ((1, cSnipP) ∈ [(1, cSnipP), (2, cSnipQ)] ∧
        (occursLit "0% d" cSnipP.title ∨ occursLit "0% d" cSnipP.code ∨
          occursLit "0% d" (descOr cSnipP)))) :=
  C6_sql_search_matches_literally "0% d" [(1, cSnipP), (2, cSnipQ)] 1 cSnipP
    (by decide) (by decide)

end Snipster
